import Mathlib

/-
Verification of the staticgraph directed-graph library (digraph.py).

The DiGraph record, its query methods, save, load and make are embedded from
src/staticgraph/digraph.py.  That file calls staticgraph._edgelist (make,
compact, swap, sort), a module that is not under src; those pieces are
modelled from the specification (sections 4.1 to 4.3) and are marked as such.
Node ids are natural numbers; numpy arrays become lists of naturals, numpy
integer indexing and python slicing are embedded explicitly, and an operation
that raises becomes an Option (None is the raised error).
-/

namespace StaticGraph

/-- An edge is an ordered pair (source, target) of node identifiers. -/
abbrev Edge := Nat × Nat

/-- Lexicographic order on edges: by first component, ties broken by the second. -/
def edgeLe (a b : Edge) : Prop := a.1 < b.1 ∨ (a.1 = b.1 ∧ a.2 ≤ b.2)

instance : DecidableRel edgeLe := fun a b => by
  unfold edgeLe; exact inferInstance

instance : IsTotal Edge edgeLe := ⟨by
  intro a b; unfold edgeLe; omega⟩

instance : IsTrans Edge edgeLe := ⟨by
  intro a b c; unfold edgeLe; omega⟩

/-- Modelled from the spec: the EdgeBuffer sort of the missing
staticgraph._edgelist (section 4.1) orders the pairs ascending lexicographic by
(first, second); any comparison sort is allowed, so insertion sort stands in. -/
def ebSort (es : List Edge) : List Edge := List.insertionSort edgeLe es

/-- Modelled from the spec: the EdgeBuffer swap of the missing
staticgraph._edgelist (section 4.1) exchanges the first and second component of
every pair. -/
def ebSwap (es : List Edge) : List Edge := es.map Prod.swap

/-- Modelled from the spec: edge ingestion of the missing staticgraph._edgelist.make
(section 4.1) consumes the edge source, requiring every node id to be a valid node
(InvalidNodeError otherwise, here None) and the produced pair count to stay within
the caller capacity estimate (sections 3 and 7; exceeding it is the unspecified
failure case, here also None), and the buffer is sorted before the first
compaction (section 4.3 step 2). -/
def edgelistMake (n_nodes : Nat) (edges : List Edge) (count : Nat) :
    Option (List Edge) :=
  if (∀ e ∈ edges, e.1 < n_nodes ∧ e.2 < n_nodes) ∧ edges.length ≤ count then
    some (ebSort edges)
  else
    none

/-- Modelled from the spec: the inner loop of the Compactor (section 4.2).  Given
the remaining sorted pairs, the node cursor k and the current position pos, it
emits the index-pointer entries for the nodes after k: advancing the cursor to a
pair's first component writes the current position for every node passed,
consuming a pair advances the position, and after the scan the remaining entries
up to n_nodes are filled with the final position. -/
def compactPtr (n_nodes : Nat) : List Edge → Nat → Nat → List Nat
  | [], k, pos => List.replicate (n_nodes - k) pos
  | (a, _) :: rest, k, pos =>
      List.replicate (a - k) pos ++ compactPtr n_nodes rest (max k a) (pos + 1)

/-- Modelled from the spec: the Compactor of the missing staticgraph._edgelist
(section 4.2) turns a sorted pair sequence into a CSR pair in one linear pass:
indptr has length n_nodes + 1 and starts at 0, indices is the sequence of second
components. -/
def compact (n_nodes : Nat) (es : List Edge) : List Nat × List Nat :=
  (0 :: compactPtr n_nodes es 0 0, es.map Prod.snd)

/-- The DiGraph record of digraph.py: node and edge counts plus the predecessor
and successor CSR arrays. -/
structure DiGraph where
  n_nodes : Nat
  n_edges : Nat
  p_indptr : List Nat
  p_indices : List Nat
  s_indptr : List Nat
  s_indices : List Nat
deriving DecidableEq

/-- Python slicing xs[start:stop] for the nonnegative bounds produced by the
indptr lookups: empty when stop is at or before start. -/
def pySlice (xs : List Nat) (start stop : Nat) : List Nat :=
  (xs.drop start).take (stop - start)

/-- Numpy integer indexing into a one-dimensional array: a nonnegative index must
be below the length, a negative index wraps from the end, and anything else is an
IndexError (None). -/
def npGet (xs : List Nat) (i : Int) : Option Nat :=
  if 0 ≤ i then xs[i.toNat]?
  else if -i ≤ (xs.length : Int) then xs[xs.length - (-i).toNat]? else none

/-- DiGraph.successors at an in-range node id u: the slice of s_indices between
s_indptr[u] and s_indptr[u + 1]. -/
def DiGraph.successors (G : DiGraph) (u : Nat) : List Nat :=
  pySlice G.s_indices (G.s_indptr.getD u 0) (G.s_indptr.getD (u + 1) 0)

/-- DiGraph.predecessors at an in-range node id v: the slice of p_indices between
p_indptr[v] and p_indptr[v + 1]. -/
def DiGraph.predecessors (G : DiGraph) (v : Nat) : List Nat :=
  pySlice G.p_indices (G.p_indptr.getD v 0) (G.p_indptr.getD (v + 1) 0)

/-- DiGraph.successors at an arbitrary integer id, with full numpy index
semantics: either of the two indptr lookups may raise IndexError (None),
otherwise the slice is returned. -/
def DiGraph.successorsAt (G : DiGraph) (u : Int) : Option (List Nat) :=
  match npGet G.s_indptr u, npGet G.s_indptr (u + 1) with
  | some start, some stop => some (pySlice G.s_indices start stop)
  | _, _ => none

/-- DiGraph.predecessors at an arbitrary integer id, with full numpy index
semantics. -/
def DiGraph.predecessorsAt (G : DiGraph) (v : Int) : Option (List Nat) :=
  match npGet G.p_indptr v, npGet G.p_indptr (v + 1) with
  | some start, some stop => some (pySlice G.p_indices start stop)
  | _, _ => none

/-- DiGraph.in_degree: difference of the two adjacent p_indptr entries. -/
def DiGraph.in_degree (G : DiGraph) (v : Nat) : Nat :=
  G.p_indptr.getD (v + 1) 0 - G.p_indptr.getD v 0

/-- DiGraph.out_degree: difference of the two adjacent s_indptr entries. -/
def DiGraph.out_degree (G : DiGraph) (u : Nat) : Nat :=
  G.s_indptr.getD (u + 1) 0 - G.s_indptr.getD u 0

/-- DiGraph.order: the number of nodes. -/
def DiGraph.order (G : DiGraph) : Nat := G.n_nodes

/-- DiGraph.size: the number of edges. -/
def DiGraph.size (G : DiGraph) : Nat := G.n_edges

/-- DiGraph.nodes: the node ids 0, 1, ..., n_nodes - 1 in order. -/
def DiGraph.nodes (G : DiGraph) : List Nat := List.range G.n_nodes

/-- DiGraph.edges: for every node u in order, the pairs (u, v) over the
successors v of u in slice order. -/
def DiGraph.edges (G : DiGraph) : List Edge :=
  G.nodes.flatMap (fun u => (G.successors u).map (fun v => (u, v)))

/-- DiGraph.has_node: true exactly when 0 <= u < n_nodes. -/
def DiGraph.has_node (G : DiGraph) (u : Int) : Bool :=
  decide (0 ≤ u ∧ u < (G.n_nodes : Int))

/-- DiGraph.has_edge at in-range ids: membership of v in successors(u). -/
def DiGraph.has_edge (G : DiGraph) (u v : Nat) : Bool :=
  decide (v ∈ G.successors u)

/-- DiGraph.has_edge at an arbitrary integer source id: the successor lookup may
raise IndexError (None), otherwise the membership test runs. -/
def DiGraph.hasEdgeAt (G : DiGraph) (u : Int) (v : Nat) : Option Bool :=
  (G.successorsAt u).map (fun s => decide (v ∈ s))

/-- The make function of digraph.py: build the edge list, compact it into the
successor CSR, swap and re-sort it, compact again into the predecessor CSR, and
assemble the DiGraph; the _edgelist pieces are the spec-modelled functions
above. -/
def make (n_nodes : Nat) (edges : List Edge) (count : Nat) : Option DiGraph :=
  (edgelistMake n_nodes edges count).map (fun es =>
    let sCSR := compact n_nodes es
    let esSwapped := ebSort (ebSwap es)
    let pCSR := compact n_nodes esSwapped
    { n_nodes := n_nodes, n_edges := es.length,
      p_indptr := pCSR.1, p_indices := pCSR.2,
      s_indptr := sCSR.1, s_indices := sCSR.2 })

/-- A persisted store: the pickled (n_nodes, n_edges) metadata record plus the
four saved arrays, as written by save in digraph.py. -/
structure Store where
  base : Nat × Nat
  p_indptr : List Nat
  p_indices : List Nat
  s_indptr : List Nat
  s_indices : List Nat
deriving DecidableEq

/-- State of the destination path before save runs. -/
inductive PathState
  | absent
  | directory
  | file
deriving DecidableEq

/-- Storage failure on save: the destination path exists and is not a directory,
so opening base.pickle inside it raises. -/
inductive StorageError
  | notADirectory
deriving DecidableEq

/-- The save function of digraph.py over a path-state abstraction of the
filesystem: when the path does not exist the directory is created; when the path
exists as a file the subsequent open of base.pickle inside it raises (modelled
from the spec naming this StorageError, section 6); otherwise the metadata
record and the four arrays are written into the directory. -/
def save (st : PathState) (G : DiGraph) : Except StorageError (PathState × Store) :=
  match st with
  | .absent =>
      .ok (.directory,
        ⟨(G.n_nodes, G.n_edges), G.p_indptr, G.p_indices, G.s_indptr, G.s_indices⟩)
  | .directory =>
      .ok (.directory,
        ⟨(G.n_nodes, G.n_edges), G.p_indptr, G.p_indices, G.s_indptr, G.s_indices⟩)
  | .file => .error .notADirectory

/-- The load function of digraph.py: read the metadata record and the four
arrays from the store and assemble the DiGraph. -/
def load (s : Store) : DiGraph :=
  ⟨s.base.1, s.base.2, s.p_indptr, s.p_indices, s.s_indptr, s.s_indices⟩

/-- Number of pairs whose first component is below j: the value the compaction
scan leaves in indptr[j]. -/
def cnt (es : List Edge) (j : Nat) : Nat :=
  es.countP (fun e => decide (e.1 < j))

/-- Adjacency of node u read off a pair list: the second components of the
pairs whose first component is u, in list order. -/
def adjOf (es : List Edge) (u : Nat) : List Nat :=
  (es.filter (fun e => decide (e.1 = u))).map Prod.snd

/-- The edge sequence of the concrete scenario in the spec. -/
def egEdges : List Edge := [(0, 1), (0, 2), (1, 2), (2, 3)]

/-- The graph the concrete scenario builds, written out field by field. -/
def egGraph : DiGraph :=
  ⟨4, 4, [0, 0, 1, 3, 4], [0, 0, 1, 2], [0, 2, 3, 4, 4], [1, 2, 2, 3]⟩

/-- The store written when the concrete scenario graph is saved. -/
def egStore : Store :=
  ⟨(4, 4), [0, 0, 1, 3, 4], [0, 0, 1, 2], [0, 2, 3, 4, 4], [1, 2, 2, 3]⟩

/-- A three-node graph with the single edge (0, 1), leaving node 2 isolated. -/
def isoGraph : DiGraph := ⟨3, 1, [0, 0, 1, 1], [0], [0, 1, 1, 1], [1]⟩

theorem ebSort_perm (es : List Edge) : (ebSort es).Perm es :=
  List.perm_insertionSort edgeLe es

theorem ebSort_pairwise (es : List Edge) : (ebSort es).Pairwise edgeLe :=
  List.sorted_insertionSort edgeLe es

theorem ebSort_pairwiseFst (es : List Edge) :
    (ebSort es).Pairwise (fun a b => a.1 ≤ b.1) :=
  (ebSort_pairwise es).imp (fun hab => by unfold edgeLe at hab; omega)

theorem mem_ebSort (es : List Edge) (e : Edge) : e ∈ ebSort es ↔ e ∈ es :=
  (ebSort_perm es).mem_iff

theorem cnt_nil (j : Nat) : cnt [] j = 0 := rfl

theorem cnt_cons (e : Edge) (rest : List Edge) (j : Nat) :
    cnt (e :: rest) j = cnt rest j + if e.1 < j then 1 else 0 := by
  unfold cnt
  rw [List.countP_cons]
  by_cases h : e.1 < j <;> simp [h]

theorem cnt_eq_zero (es : List Edge) (j : Nat) (h : ∀ e ∈ es, j ≤ e.1) :
    cnt es j = 0 := by
  unfold cnt
  apply List.countP_eq_zero.2
  intro e he
  have := h e he
  simp only [decide_eq_true_eq]
  omega

theorem cnt_succ (es : List Edge) (u : Nat) :
    cnt es (u + 1) = cnt es u + es.countP (fun e => decide (e.1 = u)) := by
  induction es with
  | nil => rfl
  | cons e rest ih =>
      rw [cnt_cons, cnt_cons, List.countP_cons, ih]
      simp only [decide_eq_true_eq]
      split_ifs <;> omega

theorem compactPtr_length (n : Nat) (es : List Edge) :
    ∀ k pos, (∀ e ∈ es, k ≤ e.1) → es.Pairwise (fun a b => a.1 ≤ b.1) →
      (∀ e ∈ es, e.1 < n) → (compactPtr n es k pos).length = n - k := by
  induction es with
  | nil => intro k pos _ _ _; simp [compactPtr]
  | cons e rest ih =>
      intro k pos hk hs hb
      obtain ⟨a, b⟩ := e
      have hka : k ≤ a := hk _ (List.mem_cons_self _ _)
      have han : a < n := hb _ (List.mem_cons_self _ _)
      simp only [compactPtr, List.length_append, List.length_replicate]
      rw [Nat.max_eq_right hka]
      rw [ih a (pos + 1)
        (fun e he => (List.pairwise_cons.1 hs).1 e he)
        (List.pairwise_cons.1 hs).2
        (fun e he => hb e (List.mem_cons_of_mem _ he))]
      omega

theorem compactPtr_getElem (n : Nat) (es : List Edge) :
    ∀ k pos j, (∀ e ∈ es, k ≤ e.1) → es.Pairwise (fun a b => a.1 ≤ b.1) →
      (∀ e ∈ es, e.1 < n) → k < j → j ≤ n →
      (compactPtr n es k pos)[j - k - 1]? = some (pos + cnt es j) := by
  induction es with
  | nil =>
      intro k pos j _ _ _ h1 h2
      simp only [compactPtr, cnt_nil, Nat.add_zero]
      rw [List.getElem?_replicate, if_pos (by omega)]
  | cons e rest ih =>
      intro k pos j hk hs hb h1 h2
      obtain ⟨a, b⟩ := e
      have hka : k ≤ a := hk _ (List.mem_cons_self _ _)
      have han : a < n := hb _ (List.mem_cons_self _ _)
      have hrestk : ∀ e ∈ rest, a ≤ e.1 := fun e he => (List.pairwise_cons.1 hs).1 e he
      have hrestb : ∀ e ∈ rest, e.1 < n := fun e he => hb e (List.mem_cons_of_mem _ he)
      simp only [compactPtr]
      rw [Nat.max_eq_right hka]
      by_cases hj : j ≤ a
      · rw [List.getElem?_append_left (by rw [List.length_replicate]; omega)]
        rw [List.getElem?_replicate, if_pos (by omega)]
        rw [cnt_cons, cnt_eq_zero rest j (fun e he => by have := hrestk e he; omega),
          if_neg (by simp only []; omega)]
        simp
      · rw [List.getElem?_append_right (by rw [List.length_replicate]; omega)]
        have hidx : j - k - 1 - (List.replicate (a - k) pos).length = j - a - 1 := by
          rw [List.length_replicate]; omega
        rw [hidx]
        rw [ih a (pos + 1) j hrestk (List.pairwise_cons.1 hs).2 hrestb (by omega) h2]
        rw [cnt_cons, if_pos (by omega)]
        congr 1
        omega

theorem compact_fst_getElem (n : Nat) (es : List Edge) (j : Nat)
    (hs : es.Pairwise (fun a b => a.1 ≤ b.1)) (hb : ∀ e ∈ es, e.1 < n) (hj : j ≤ n) :
    (compact n es).1[j]? = some (cnt es j) := by
  match j with
  | 0 =>
      simp only [compact]
      rw [cnt_eq_zero es 0 (fun e _ => Nat.zero_le _), List.getElem?_cons_zero]
  | j + 1 =>
      simp only [compact]
      rw [List.getElem?_cons_succ]
      have := compactPtr_getElem n es 0 0 (j + 1) (fun e _ => Nat.zero_le _) hs hb
        (by omega) hj
      simpa using this

theorem compact_fst_getD (n : Nat) (es : List Edge) (j : Nat)
    (hs : es.Pairwise (fun a b => a.1 ≤ b.1)) (hb : ∀ e ∈ es, e.1 < n) (hj : j ≤ n) :
    (compact n es).1.getD j 0 = cnt es j := by
  rw [List.getD_eq_getElem?_getD, compact_fst_getElem n es j hs hb hj]
  rfl

theorem compact_fst_length (n : Nat) (es : List Edge)
    (hs : es.Pairwise (fun a b => a.1 ≤ b.1)) (hb : ∀ e ∈ es, e.1 < n) :
    (compact n es).1.length = n + 1 := by
  simp only [compact, List.length_cons]
  rw [compactPtr_length n es 0 0 (fun e _ => Nat.zero_le _) hs hb]
  omega

theorem take_cnt (u : Nat) (es : List Edge)
    (hs : es.Pairwise (fun a b => a.1 ≤ b.1)) (hk : ∀ e ∈ es, u ≤ e.1) :
    (es.map Prod.snd).take (cnt es (u + 1)) =
      (es.filter (fun e => decide (e.1 = u))).map Prod.snd := by
  induction es with
  | nil => rfl
  | cons e rest ih =>
      obtain ⟨a, b⟩ := e
      have h1 : ∀ x ∈ rest, a ≤ x.1 := (List.pairwise_cons.1 hs).1
      have h2 := (List.pairwise_cons.1 hs).2
      have hua : u ≤ a := hk _ (List.mem_cons_self _ _)
      by_cases hau : a = u
      · subst hau
        rw [cnt_cons, if_pos (by omega)]
        simp only [List.map_cons, List.take_succ_cons]
        rw [List.filter_cons_of_pos (by simp)]
        simp only [List.map_cons]
        congr 1
        exact ih h2 (fun e he => h1 e he)
      · have hcnt : cnt ((a, b) :: rest) (u + 1) = 0 := by
          apply cnt_eq_zero
          intro e he
          rcases List.mem_cons.1 he with h | h
          · subst h; omega
          · have := h1 e h; omega
        rw [hcnt, List.take_zero]
        have hfil : ((a, b) :: rest).filter (fun e => decide (e.1 = u)) = [] := by
          apply List.filter_eq_nil_iff.2
          intro e he
          rcases List.mem_cons.1 he with h | h
          · subst h; simp; omega
          · have := h1 e h; simp; omega
        rw [hfil]
        rfl

theorem slice_adj (u : Nat) (es : List Edge)
    (hs : es.Pairwise (fun a b => a.1 ≤ b.1)) :
    pySlice (es.map Prod.snd) (cnt es u) (cnt es (u + 1)) = adjOf es u := by
  induction es with
  | nil => rfl
  | cons e rest ih =>
      obtain ⟨a, b⟩ := e
      have h1 : ∀ x ∈ rest, a ≤ x.1 := (List.pairwise_cons.1 hs).1
      have h2 := (List.pairwise_cons.1 hs).2
      by_cases hau : a < u
      · rw [cnt_cons, if_pos hau, cnt_cons, if_pos (by omega)]
        unfold pySlice
        simp only [List.map_cons, List.drop_succ_cons]
        unfold adjOf
        rw [List.filter_cons_of_neg (by simp; omega)]
        have harith : cnt rest (u + 1) + 1 - (cnt rest u + 1) =
            cnt rest (u + 1) - cnt rest u := by omega
        rw [harith]
        exact ih h2
      · have h0 : cnt ((a, b) :: rest) u = 0 := by
          apply cnt_eq_zero
          intro e he
          rcases List.mem_cons.1 he with h | h
          · subst h; omega
          · have := h1 e h; omega
        rw [h0]
        unfold pySlice
        rw [List.drop_zero, Nat.sub_zero]
        exact take_cnt u ((a, b) :: rest) hs (fun e he => by
          rcases List.mem_cons.1 he with h | h
          · subst h; omega
          · have := h1 e h; omega)

theorem mem_adjOf (es : List Edge) (u v : Nat) : v ∈ adjOf es u ↔ (u, v) ∈ es := by
  unfold adjOf
  simp only [List.mem_map, List.mem_filter, decide_eq_true_eq]
  constructor
  · rintro ⟨⟨x, y⟩, ⟨hmem, hx⟩, hy⟩
    simp only at hx hy
    subst hx
    subst hy
    exact hmem
  · intro h
    exact ⟨(u, v), ⟨h, rfl⟩, rfl⟩

theorem adjOf_eq_nil (es : List Edge) (u : Nat) (h : ∀ v, (u, v) ∉ es) :
    adjOf es u = [] := by
  unfold adjOf
  rw [List.filter_eq_nil_iff.2]
  · rfl
  · rintro ⟨x, y⟩ hm
    simp only [decide_eq_true_eq]
    intro hx
    subst hx
    exact h y hm

theorem make_eq_some (n : Nat) (edges : List Edge) (c : Nat) (G : DiGraph)
    (h : make n edges c = some G) :
    (∀ e ∈ edges, e.1 < n ∧ e.2 < n) ∧ edges.length ≤ c ∧
    G.n_nodes = n ∧ G.n_edges = (ebSort edges).length ∧
    G.s_indptr = (compact n (ebSort edges)).1 ∧
    G.s_indices = (ebSort edges).map Prod.snd ∧
    G.p_indptr = (compact n (ebSort (ebSwap (ebSort edges)))).1 ∧
    G.p_indices = (ebSort (ebSwap (ebSort edges))).map Prod.snd := by
  unfold make edgelistMake at h
  by_cases hcond : (∀ e ∈ edges, e.1 < n ∧ e.2 < n) ∧ edges.length ≤ c
  · rw [if_pos hcond] at h
    simp only [Option.map_some'] at h
    injection h with h
    subst h
    exact ⟨hcond.1, hcond.2, rfl, rfl, rfl, rfl, rfl, rfl⟩
  · rw [if_neg hcond] at h
    simp at h

theorem mem_pSorted (edges : List Edge) (u v : Nat) :
    (u, v) ∈ ebSort (ebSwap (ebSort edges)) ↔ (v, u) ∈ edges := by
  rw [mem_ebSort]
  unfold ebSwap
  simp only [List.mem_map]
  constructor
  · rintro ⟨⟨x, y⟩, hx, hswap⟩
    rw [mem_ebSort] at hx
    have hxy : y = u ∧ x = v := by
      have h1 := congrArg Prod.fst hswap
      have h2 := congrArg Prod.snd hswap
      simp [Prod.swap] at h1 h2
      exact ⟨h1, h2⟩
    obtain ⟨hy, hx2⟩ := hxy
    subst hy
    subst hx2
    exact hx
  · intro h
    exact ⟨(v, u), (mem_ebSort _ _).2 h, rfl⟩

theorem pSorted_fst_bound (n : Nat) (edges : List Edge)
    (hv : ∀ e ∈ edges, e.1 < n ∧ e.2 < n) :
    ∀ e ∈ ebSort (ebSwap (ebSort edges)), e.1 < n := by
  rintro ⟨x, y⟩ hm
  have := (mem_pSorted edges x y).1 hm
  exact (hv _ this).2

theorem sSorted_fst_bound (n : Nat) (edges : List Edge)
    (hv : ∀ e ∈ edges, e.1 < n ∧ e.2 < n) :
    ∀ e ∈ ebSort edges, e.1 < n := by
  intro e hm
  exact (hv e ((mem_ebSort _ _).1 hm)).1

theorem pSorted_length (edges : List Edge) :
    (ebSort (ebSwap (ebSort edges))).length = edges.length := by
  rw [(ebSort_perm _).length_eq]
  unfold ebSwap
  rw [List.length_map]
  exact (ebSort_perm _).length_eq

theorem make_successors (n : Nat) (edges : List Edge) (c : Nat) (G : DiGraph)
    (h : make n edges c = some G) (u : Nat) (hu : u < n) :
    G.successors u = adjOf (ebSort edges) u := by
  obtain ⟨hv, _, _, _, hsp, hsi, _, _⟩ := make_eq_some n edges c G h
  unfold DiGraph.successors
  rw [hsp, hsi]
  have hs := ebSort_pairwiseFst edges
  have hb := sSorted_fst_bound n edges hv
  rw [compact_fst_getD n _ u hs hb (by omega),
    compact_fst_getD n _ (u + 1) hs hb (by omega)]
  exact slice_adj u (ebSort edges) hs

theorem make_predecessors (n : Nat) (edges : List Edge) (c : Nat) (G : DiGraph)
    (h : make n edges c = some G) (v : Nat) (hv' : v < n) :
    G.predecessors v = adjOf (ebSort (ebSwap (ebSort edges))) v := by
  obtain ⟨hv, _, _, _, _, _, hpp, hpi⟩ := make_eq_some n edges c G h
  unfold DiGraph.predecessors
  rw [hpp, hpi]
  have hs := ebSort_pairwiseFst (ebSwap (ebSort edges))
  have hb := pSorted_fst_bound n edges hv
  rw [compact_fst_getD n _ v hs hb (by omega),
    compact_fst_getD n _ (v + 1) hs hb (by omega)]
  exact slice_adj v _ hs

theorem make_mem_successors (n : Nat) (edges : List Edge) (c : Nat) (G : DiGraph)
    (h : make n edges c = some G) (u v : Nat) (hu : u < n) :
    v ∈ G.successors u ↔ (u, v) ∈ edges := by
  rw [make_successors n edges c G h u hu, mem_adjOf, mem_ebSort]

theorem make_mem_predecessors (n : Nat) (edges : List Edge) (c : Nat) (G : DiGraph)
    (h : make n edges c = some G) (u v : Nat) (hv : v < n) :
    u ∈ G.predecessors v ↔ (u, v) ∈ edges := by
  rw [make_predecessors n edges c G h v hv, mem_adjOf, mem_pSorted]

theorem egGraph_make : make 4 egEdges 10 = some egGraph := by decide

theorem make_out_degree (n : Nat) (edges : List Edge) (c : Nat) (G : DiGraph)
    (h : make n edges c = some G) (u : Nat) (hu : u < n) :
    G.out_degree u = (ebSort edges).countP (fun e => decide (e.1 = u)) := by
  obtain ⟨hv, _, _, _, hsp, _, _, _⟩ := make_eq_some n edges c G h
  unfold DiGraph.out_degree
  rw [hsp]
  have hs := ebSort_pairwiseFst edges
  have hb := sSorted_fst_bound n edges hv
  rw [compact_fst_getD n _ u hs hb (by omega),
    compact_fst_getD n _ (u + 1) hs hb (by omega), cnt_succ]
  omega

theorem make_in_degree (n : Nat) (edges : List Edge) (c : Nat) (G : DiGraph)
    (h : make n edges c = some G) (v : Nat) (hv' : v < n) :
    G.in_degree v =
      (ebSort (ebSwap (ebSort edges))).countP (fun e => decide (e.1 = v)) := by
  obtain ⟨hv, _, _, _, _, _, hpp, _⟩ := make_eq_some n edges c G h
  unfold DiGraph.in_degree
  rw [hpp]
  have hs := ebSort_pairwiseFst (ebSwap (ebSort edges))
  have hb := pSorted_fst_bound n edges hv
  rw [compact_fst_getD n _ v hs hb (by omega),
    compact_fst_getD n _ (v + 1) hs hb (by omega), cnt_succ]
  omega

theorem sum_countP_fst (es : List Edge) (n : Nat) (hb : ∀ e ∈ es, e.1 < n) :
    (∑ u in Finset.range n, es.countP (fun e => decide (e.1 = u))) = es.length := by
  induction es with
  | nil => simp
  | cons e rest ih =>
      have hrest : ∀ x ∈ rest, x.1 < n := fun x hx => hb x (List.mem_cons_of_mem _ hx)
      have he : e.1 < n := hb e (List.mem_cons_self _ _)
      simp only [List.countP_cons, List.length_cons]
      rw [Finset.sum_add_distrib, ih hrest]
      congr 1
      have hconv : ∀ u ∈ Finset.range n,
          (if (fun x : Edge => decide (x.1 = u)) e = true then 1 else 0) =
            if e.1 = u then 1 else 0 := by
        intro u _
        by_cases hx : e.1 = u <;> simp [hx]
      rw [Finset.sum_congr rfl hconv, Finset.sum_ite_eq]
      simp [Finset.mem_range.2 he]

/-- C1: for a graph built by make, has_edge is true on every pair supplied by
the edge source, and false on every pair of valid node ids never supplied. -/
theorem hasEdge_iff_supplied (n : Nat) (edges : List Edge) (c : Nat) (G : DiGraph)
    (h : make n edges c = some G) (u v : Nat) :
    ((u, v) ∈ edges → G.has_edge u v = true) ∧
    (u < n → v < n → (u, v) ∉ edges → G.has_edge u v = false) := by
  have hv := (make_eq_some n edges c G h).1
  constructor
  · intro hm
    have hu : u < n := (hv _ hm).1
    unfold DiGraph.has_edge
    rw [decide_eq_true_eq]
    exact (make_mem_successors n edges c G h u v hu).2 hm
  · intro hu hv2 hnm
    unfold DiGraph.has_edge
    rw [decide_eq_false_iff_not]
    intro hmem
    exact hnm ((make_mem_successors n edges c G h u v hu).1 hmem)

/-- C1 witness: on the concrete scenario, the supplied pair (0, 2) is an edge
and the never-supplied pair (3, 0) is not. -/
theorem hasEdge_iff_supplied_witness :
    egGraph.has_edge 0 2 = true ∧ egGraph.has_edge 3 0 = false :=
  ⟨(hasEdge_iff_supplied 4 egEdges 10 egGraph egGraph_make 0 2).1 (by decide),
   (hasEdge_iff_supplied 4 egEdges 10 egGraph egGraph_make 3 0).2 (by decide)
     (by decide) (by decide)⟩

/-- C2: for a graph built by make and valid node ids u and v, v is a successor
of u exactly when u is a predecessor of v. -/
theorem successors_predecessors_dual (n : Nat) (edges : List Edge) (c : Nat)
    (G : DiGraph) (h : make n edges c = some G) (u v : Nat)
    (hu : u < n) (hv : v < n) :
    v ∈ G.successors u ↔ u ∈ G.predecessors v := by
  rw [make_mem_successors n edges c G h u v hu,
    make_mem_predecessors n edges c G h u v hv]

/-- C2 witness: duality instantiated on the concrete scenario at u = 0, v = 2. -/
theorem successors_predecessors_dual_witness :
    2 ∈ egGraph.successors 0 ↔ 0 ∈ egGraph.predecessors 2 :=
  successors_predecessors_dual 4 egEdges 10 egGraph egGraph_make 0 2
    (by decide) (by decide)

/-- C3: for a graph built by make, the out-degrees and the in-degrees each sum
to the number of supplied edges, which is size(), and each degree is the
difference of two adjacent indptr entries. -/
theorem degree_sums (n : Nat) (edges : List Edge) (c : Nat) (G : DiGraph)
    (h : make n edges c = some G) :
    (∑ u in Finset.range n, G.out_degree u) = edges.length ∧
    (∑ v in Finset.range n, G.in_degree v) = edges.length ∧
    G.size = edges.length ∧
    (∀ u, G.out_degree u = G.s_indptr.getD (u + 1) 0 - G.s_indptr.getD u 0) ∧
    (∀ v, G.in_degree v = G.p_indptr.getD (v + 1) 0 - G.p_indptr.getD v 0) := by
  obtain ⟨hv, _, _, hne, _, _, _, _⟩ := make_eq_some n edges c G h
  refine ⟨?_, ?_, ?_, fun u => rfl, fun v => rfl⟩
  · rw [Finset.sum_congr rfl
      (fun u hu => make_out_degree n edges c G h u (Finset.mem_range.1 hu))]
    rw [sum_countP_fst (ebSort edges) n (sSorted_fst_bound n edges hv)]
    exact (ebSort_perm edges).length_eq
  · rw [Finset.sum_congr rfl
      (fun v hv2 => make_in_degree n edges c G h v (Finset.mem_range.1 hv2))]
    rw [sum_countP_fst _ n (pSorted_fst_bound n edges hv)]
    exact pSorted_length edges
  · unfold DiGraph.size
    rw [hne]
    exact (ebSort_perm edges).length_eq

/-- C3 witness: the degree sums on the concrete scenario all equal 4. -/
theorem degree_sums_witness :
    (∑ u in Finset.range 4, egGraph.out_degree u) = 4 ∧
    (∑ v in Finset.range 4, egGraph.in_degree v) = 4 ∧
    egGraph.size = 4 :=
  ⟨(degree_sums 4 egEdges 10 egGraph egGraph_make).1,
   (degree_sums 4 egEdges 10 egGraph egGraph_make).2.1,
   (degree_sums 4 egEdges 10 egGraph egGraph_make).2.2.1⟩

/-- C4: the concrete scenario: n_nodes 4, edge sequence
[(0,1),(0,2),(1,2),(2,3)] and capacity 10 produce exactly the stated CSR
arrays, order, size and has_edge answers. -/
theorem concrete_scenario :
    (make 4 [(0, 1), (0, 2), (1, 2), (2, 3)] 10).map (fun G =>
      (G.s_indptr, G.s_indices, G.p_indptr, G.p_indices,
        G.order, G.size, G.has_edge 0 2, G.has_edge 3 0)) =
      some ([0, 2, 3, 4, 4], [1, 2, 2, 3], [0, 0, 1, 3, 4], [0, 0, 1, 2],
        4, 4, true, false) := by
  rfl

/-- C6: saving a graph and loading the resulting store yields a graph with the
same order, the same size, and for every node the same successor and
predecessor sequences. -/
theorem save_load_roundtrip (st d : PathState) (G : DiGraph) (s : Store)
    (h : save st G = .ok (d, s)) :
    (load s).order = G.order ∧ (load s).size = G.size ∧
    (∀ u, (load s).successors u = G.successors u) ∧
    (∀ v, (load s).predecessors v = G.predecessors v) := by
  cases st with
  | absent =>
      simp only [save, Except.ok.injEq, Prod.mk.injEq] at h
      obtain ⟨hd, hs⟩ := h
      subst hs
      exact ⟨rfl, rfl, fun u => rfl, fun v => rfl⟩
  | directory =>
      simp only [save, Except.ok.injEq, Prod.mk.injEq] at h
      obtain ⟨hd, hs⟩ := h
      subst hs
      exact ⟨rfl, rfl, fun u => rfl, fun v => rfl⟩
  | file => simp [save] at h

/-- C6 witness: round trip through an absent path on the concrete scenario
graph, checked at node 0. -/
theorem save_load_roundtrip_witness :
    (load egStore).order = egGraph.order ∧
    (load egStore).size = egGraph.size ∧
    (load egStore).successors 0 = egGraph.successors 0 ∧
    (load egStore).predecessors 2 = egGraph.predecessors 2 :=
  ⟨(save_load_roundtrip .absent .directory egGraph egStore rfl).1,
   (save_load_roundtrip .absent .directory egGraph egStore rfl).2.1,
   (save_load_roundtrip .absent .directory egGraph egStore rfl).2.2.1 0,
   (save_load_roundtrip .absent .directory egGraph egStore rfl).2.2.2 2⟩

/-- C8: has_node answers true exactly on the range 0 <= u < n_nodes, in
particular it is false at -1 and at n_nodes, and the successor and predecessor
sequences of an isolated node are empty. -/
theorem has_node_boundary_isolated (n : Nat) (edges : List Edge) (c : Nat)
    (G : DiGraph) (h : make n edges c = some G) (u : Nat) (hu : u < n)
    (hiso : ∀ e ∈ edges, e.1 ≠ u ∧ e.2 ≠ u) :
    (∀ i : Int, G.has_node i = true ↔ 0 ≤ i ∧ i < (n : Int)) ∧
    G.has_node (-1) = false ∧ G.has_node (n : Int) = false ∧
    G.successors u = [] ∧ G.predecessors u = [] := by
  have hn := (make_eq_some n edges c G h).2.2.1
  refine ⟨?_, ?_, ?_, ?_, ?_⟩
  · intro i
    unfold DiGraph.has_node
    rw [hn, decide_eq_true_eq]
  · unfold DiGraph.has_node
    rw [hn]
    simp
  · unfold DiGraph.has_node
    rw [hn]
    simp
  · rw [make_successors n edges c G h u hu]
    apply adjOf_eq_nil
    intro v hm
    exact (hiso _ ((mem_ebSort edges (u, v)).1 hm)).1 rfl
  · rw [make_predecessors n edges c G h u hu]
    apply adjOf_eq_nil
    intro v hm
    exact (hiso _ ((mem_pSorted edges u v).1 hm)).2 rfl

theorem isoGraph_make : make 3 [(0, 1)] 5 = some isoGraph := by decide

/-- C8 witness: boundary answers of has_node and emptiness at the isolated
node 2 of the single-edge graph. -/
theorem has_node_boundary_isolated_witness :
    (isoGraph.has_node 2 = true ↔ (0 : Int) ≤ 2 ∧ (2 : Int) < 3) ∧
    isoGraph.has_node (-1) = false ∧ isoGraph.has_node 3 = false ∧
    isoGraph.successors 2 = [] ∧ isoGraph.predecessors 2 = [] := by
  have H := has_node_boundary_isolated 3 [(0, 1)] 5 isoGraph isoGraph_make 2
    (by decide) (by decide)
  exact ⟨H.1 2, H.2.1, H.2.2.1, H.2.2.2.1, H.2.2.2.2⟩

/-- C9: save creates the store directory when the path is absent, fails with
the storage error when the path exists and is not a directory, and writes the
metadata record plus the four arrays. -/
theorem save_behavior (G : DiGraph) :
    save .absent G = .ok (.directory,
      ⟨(G.n_nodes, G.n_edges), G.p_indptr, G.p_indices, G.s_indptr, G.s_indices⟩) ∧
    save .directory G = .ok (.directory,
      ⟨(G.n_nodes, G.n_edges), G.p_indptr, G.p_indices, G.s_indptr, G.s_indices⟩) ∧
    save .file G = .error .notADirectory :=
  ⟨rfl, rfl, rfl⟩

theorem map_fst_const (nn : Nat) (l : List Edge) (h : ∀ e ∈ l, e.1 = nn) :
    (l.map Prod.snd).map (fun v => (nn, v)) = l := by
  rw [List.map_map]
  have hcong : ∀ e ∈ l, ((fun v => (nn, v)) ∘ Prod.snd) e = id e := by
    rintro ⟨a, b⟩ he
    have := h _ he
    simp only at this
    simp [Function.comp, this]
  rw [List.map_congr_left hcong, List.map_id]

theorem sorted_split (es : List Edge) (nn : Nat)
    (hs : es.Pairwise (fun a b => a.1 ≤ b.1)) (hb : ∀ e ∈ es, e.1 < nn + 1) :
    es = es.filter (fun e => decide (e.1 < nn)) ++
      es.filter (fun e => decide (e.1 = nn)) := by
  induction es with
  | nil => rfl
  | cons e rest ih =>
      have h1 : ∀ x ∈ rest, e.1 ≤ x.1 := (List.pairwise_cons.1 hs).1
      have h2 := (List.pairwise_cons.1 hs).2
      have he : e.1 < nn + 1 := hb e (List.mem_cons_self _ _)
      have hrest : ∀ x ∈ rest, x.1 < nn + 1 := fun x hx => hb x (List.mem_cons_of_mem _ hx)
      by_cases hlt : e.1 < nn
      · rw [List.filter_cons_of_pos (by simp [hlt]),
          List.filter_cons_of_neg (by simp; omega), List.cons_append]
        exact congrArg (e :: ·) (ih h2 hrest)
      · have heq : e.1 = nn := by omega
        rw [List.filter_cons_of_neg (by simp [hlt]),
          List.filter_cons_of_pos (by simp [heq])]
        rw [List.filter_eq_nil_iff.2 (fun x hx => by
          have := h1 x hx
          simp only [decide_eq_true_eq]
          omega)]
        rw [List.filter_eq_self.2 (fun x hx => by
          have hx1 := h1 x hx
          have hx2 := hrest x hx
          simp only [decide_eq_true_eq]
          omega)]
        rfl

theorem flatMap_adjOf (nn : Nat) (es : List Edge)
    (hs : es.Pairwise (fun a b => a.1 ≤ b.1)) (hb : ∀ e ∈ es, e.1 < nn) :
    (List.range nn).flatMap (fun u => (adjOf es u).map (fun v => (u, v))) = es := by
  induction nn generalizing es with
  | zero =>
      cases es with
      | nil => rfl
      | cons e rest => exact absurd (hb e (List.mem_cons_self _ _)) (by omega)
  | succ m ih =>
      rw [List.range_succ, List.flatMap_append]
      have hadj : ∀ u ∈ List.range m,
          (adjOf es u).map (fun v => (u, v)) =
            (adjOf (es.filter (fun e => decide (e.1 < m))) u).map (fun v => (u, v)) := by
        intro u hu
        have hum : u < m := List.mem_range.1 hu
        congr 1
        unfold adjOf
        rw [List.filter_filter]
        congr 1
        apply List.filter_congr
        intro e he
        by_cases hx : e.1 = u
        · simp [hx, hum]
        · simp [hx]
      have hflat : (List.range m).flatMap
            (fun u => (adjOf es u).map (fun v => (u, v))) =
          (List.range m).flatMap
            (fun u => (adjOf (es.filter (fun e => decide (e.1 < m))) u).map
              (fun v => (u, v))) := by
        simp only [List.flatMap]
        rw [List.map_congr_left hadj]
      rw [hflat]
      rw [ih (es.filter (fun e => decide (e.1 < m))) (hs.filter _)
        (fun e he => by
          have := (List.mem_filter.1 he).2
          simp only [decide_eq_true_eq] at this
          exact this)]
      have hlast : (adjOf es m).map (fun v => (m, v)) =
          es.filter (fun e => decide (e.1 = m)) := by
        unfold adjOf
        apply map_fst_const
        intro e he
        have := (List.mem_filter.1 he).2
        simp only [decide_eq_true_eq] at this
        exact this
      rw [List.flatMap_cons, List.flatMap_nil, List.append_nil, hlast]
      exact (sorted_split es m hs hb).symm

/-- C5: edges() enumerates, for each node u in ascending order, the successors
of u in ascending order: the sequence is exactly the lexicographically sorted
edge list, and its second components read the s_indices array linearly. -/
theorem edges_linear_csr (n : Nat) (edges : List Edge) (c : Nat) (G : DiGraph)
    (h : make n edges c = some G) :
    G.edges = ebSort edges ∧
    G.edges.map Prod.snd = G.s_indices ∧
    G.edges.Pairwise edgeLe := by
  obtain ⟨hv, _, hn, _, _, hsi, _, _⟩ := make_eq_some n edges c G h
  have hmain : G.edges = ebSort edges := by
    unfold DiGraph.edges DiGraph.nodes
    rw [hn]
    have hcong : ∀ u ∈ List.range n,
        (G.successors u).map (fun v => (u, v)) =
          (adjOf (ebSort edges) u).map (fun v => (u, v)) := by
      intro u hu
      rw [make_successors n edges c G h u (List.mem_range.1 hu)]
    have hrw : (List.range n).flatMap
          (fun u => (G.successors u).map (fun v => (u, v))) =
        (List.range n).flatMap
          (fun u => (adjOf (ebSort edges) u).map (fun v => (u, v))) := by
      simp only [List.flatMap]
      rw [List.map_congr_left hcong]
    rw [hrw]
    exact flatMap_adjOf n (ebSort edges) (ebSort_pairwiseFst edges)
      (sSorted_fst_bound n edges hv)
  refine ⟨hmain, ?_, ?_⟩
  · rw [hmain, hsi]
  · rw [hmain]
    exact ebSort_pairwise edges

/-- C5 witness: the enumeration on the concrete scenario graph. -/
theorem edges_linear_csr_witness :
    egGraph.edges = ebSort egEdges ∧
    egGraph.edges.map Prod.snd = egGraph.s_indices :=
  ⟨(edges_linear_csr 4 egEdges 10 egGraph egGraph_make).1,
   (edges_linear_csr 4 egEdges 10 egGraph egGraph_make).2.1⟩

theorem make_s_indptr_length (n : Nat) (edges : List Edge) (c : Nat) (G : DiGraph)
    (h : make n edges c = some G) : G.s_indptr.length = n + 1 := by
  obtain ⟨hv, _, _, _, hsp, _, _, _⟩ := make_eq_some n edges c G h
  rw [hsp]
  exact compact_fst_length n _ (ebSort_pairwiseFst edges) (sSorted_fst_bound n edges hv)

theorem make_p_indptr_length (n : Nat) (edges : List Edge) (c : Nat) (G : DiGraph)
    (h : make n edges c = some G) : G.p_indptr.length = n + 1 := by
  obtain ⟨hv, _, _, _, _, _, hpp, _⟩ := make_eq_some n edges c G h
  rw [hpp]
  exact compact_fst_length n _ (ebSort_pairwiseFst _) (pSorted_fst_bound n edges hv)

theorem getElem?_eq_some_getD (xs : List Nat) (i : Nat) (h : i < xs.length) :
    xs[i]? = some (xs.getD i 0) := by
  rw [List.getD_eq_getElem?_getD, List.getElem?_eq_getElem h]
  rfl

theorem npGet_nonneg (xs : List Nat) (u : Nat) : npGet xs (u : Int) = xs[u]? := by
  unfold npGet
  rw [if_pos (by omega)]
  congr 1

theorem npGet_none_of_ge (xs : List Nat) (i : Int) (h : (xs.length : Int) ≤ i) :
    npGet xs i = none := by
  unfold npGet
  rw [if_pos (by omega)]
  apply List.getElem?_eq_none
  omega

theorem npGet_none_of_lt (xs : List Nat) (i : Int) (h : i < -(xs.length : Int)) :
    npGet xs i = none := by
  unfold npGet
  rw [if_neg (by omega), if_neg (by omega)]

theorem npGet_neg (xs : List Nat) (j : Nat) (h1 : 1 ≤ j) (h2 : j ≤ xs.length) :
    npGet xs (-(j : Int)) = xs[xs.length - j]? := by
  unfold npGet
  rw [if_neg (by omega), if_pos (by omega)]
  congr 1
  omega

theorem npGet_isSome (xs : List Nat) (i : Int) (h1 : -(xs.length : Int) ≤ i)
    (h2 : i < (xs.length : Int)) : (npGet xs i).isSome := by
  unfold npGet
  by_cases h : 0 ≤ i
  · rw [if_pos h, List.getElem?_eq_getElem (by omega)]
    rfl
  · rw [if_neg h, if_pos (by omega), List.getElem?_eq_getElem (by omega)]
    rfl

theorem successorsAt_isSome (G : DiGraph) (i : Int)
    (h1 : (npGet G.s_indptr i).isSome) (h2 : (npGet G.s_indptr (i + 1)).isSome) :
    (G.successorsAt i).isSome := by
  obtain ⟨a, hx⟩ := Option.isSome_iff_exists.1 h1
  obtain ⟨b, hy⟩ := Option.isSome_iff_exists.1 h2
  unfold DiGraph.successorsAt
  rw [hx, hy]
  rfl

theorem predecessorsAt_isSome (G : DiGraph) (i : Int)
    (h1 : (npGet G.p_indptr i).isSome) (h2 : (npGet G.p_indptr (i + 1)).isSome) :
    (G.predecessorsAt i).isSome := by
  obtain ⟨a, hx⟩ := Option.isSome_iff_exists.1 h1
  obtain ⟨b, hy⟩ := Option.isSome_iff_exists.1 h2
  unfold DiGraph.predecessorsAt
  rw [hx, hy]
  rfl

theorem successorsAt_none_right (G : DiGraph) (i : Int)
    (h : npGet G.s_indptr (i + 1) = none) : G.successorsAt i = none := by
  unfold DiGraph.successorsAt
  rw [h]
  cases npGet G.s_indptr i <;> rfl

theorem successorsAt_none_left (G : DiGraph) (i : Int)
    (h : npGet G.s_indptr i = none) : G.successorsAt i = none := by
  unfold DiGraph.successorsAt
  rw [h]

theorem predecessorsAt_none_right (G : DiGraph) (i : Int)
    (h : npGet G.p_indptr (i + 1) = none) : G.predecessorsAt i = none := by
  unfold DiGraph.predecessorsAt
  rw [h]
  cases npGet G.p_indptr i <;> rfl

theorem predecessorsAt_none_left (G : DiGraph) (i : Int)
    (h : npGet G.p_indptr i = none) : G.predecessorsAt i = none := by
  unfold DiGraph.predecessorsAt
  rw [h]

/-- C7 counterexample: on the concrete scenario graph the out-of-range id -3
is not rejected with an error: the successors query silently returns the
slice of node 2. -/
theorem successors_negative_not_rejected :
    make 4 egEdges 10 = some egGraph ∧
    egGraph.successorsAt (-3) = some [3] ∧
    egGraph.successorsAt (-3) = some (egGraph.successors 2) :=
  ⟨egGraph_make, rfl, rfl⟩

/-- C7 amended: the queries raise an index error only for ids at or above
n_nodes or below -(n_nodes + 1); a negative id in the range
-(n_nodes + 1) <= i <= -1 is accepted and silently yields a slice. -/
theorem query_out_of_range (n : Nat) (edges : List Edge) (c : Nat) (G : DiGraph)
    (h : make n edges c = some G) (i : Int) :
    ((n : Int) ≤ i → G.successorsAt i = none ∧ G.predecessorsAt i = none) ∧
    (i < -((n : Int) + 1) → G.successorsAt i = none ∧ G.predecessorsAt i = none) ∧
    (-((n : Int) + 1) ≤ i → i < 0 →
      (G.successorsAt i).isSome ∧ (G.predecessorsAt i).isSome) := by
  have hsl := make_s_indptr_length n edges c G h
  have hpl := make_p_indptr_length n edges c G h
  refine ⟨fun hge => ?_, fun hlt => ?_, fun hge hlt => ?_⟩
  · exact ⟨successorsAt_none_right G i (npGet_none_of_ge _ _ (by rw [hsl]; push_cast; omega)),
      predecessorsAt_none_right G i (npGet_none_of_ge _ _ (by rw [hpl]; push_cast; omega))⟩
  · exact ⟨successorsAt_none_left G i (npGet_none_of_lt _ _ (by rw [hsl]; push_cast; omega)),
      predecessorsAt_none_left G i (npGet_none_of_lt _ _ (by rw [hpl]; push_cast; omega))⟩
  · refine ⟨successorsAt_isSome G i ?_ ?_, predecessorsAt_isSome G i ?_ ?_⟩
    · exact npGet_isSome _ _ (by rw [hsl]; push_cast; omega) (by rw [hsl]; push_cast; omega)
    · exact npGet_isSome _ _ (by rw [hsl]; push_cast; omega) (by rw [hsl]; push_cast; omega)
    · exact npGet_isSome _ _ (by rw [hpl]; push_cast; omega) (by rw [hpl]; push_cast; omega)
    · exact npGet_isSome _ _ (by rw [hpl]; push_cast; omega) (by rw [hpl]; push_cast; omega)

/-- C7 amended witness: on the concrete scenario graph, id 4 and id -6 raise,
while id -2 silently yields a slice. -/
theorem query_out_of_range_witness :
    (egGraph.successorsAt 4 = none ∧ egGraph.predecessorsAt 4 = none) ∧
    (egGraph.successorsAt (-6) = none ∧ egGraph.predecessorsAt (-6) = none) ∧
    ((egGraph.successorsAt (-2)).isSome ∧ (egGraph.predecessorsAt (-2)).isSome) :=
  ⟨(query_out_of_range 4 egEdges 10 egGraph egGraph_make 4).1 (by decide),
   (query_out_of_range 4 egEdges 10 egGraph egGraph_make (-6)).2.1 (by decide),
   (query_out_of_range 4 egEdges 10 egGraph egGraph_make (-2)).2.2 (by decide) (by decide)⟩

theorem successorsAt_eq (G : DiGraph) (i : Int) (a b : Nat)
    (h1 : npGet G.s_indptr i = some a) (h2 : npGet G.s_indptr (i + 1) = some b) :
    G.successorsAt i = some (pySlice G.s_indices a b) := by
  unfold DiGraph.successorsAt
  rw [h1, h2]

/-- C10: a negative node id raises no error in the query engine: successors at
-1 is the empty slice from the last indptr entry to indptr[0] = 0, successors
at -j for 2 <= j <= n_nodes is the successor slice of node n_nodes + 1 - j,
and has_edge with a negative source returns a boolean. -/
theorem negative_ids_wrap (n : Nat) (edges : List Edge) (c : Nat) (G : DiGraph)
    (h : make n edges c = some G) :
    G.successorsAt (-1) = some [] ∧
    (∀ j : Nat, 2 ≤ j → j ≤ n →
      G.successorsAt (-(j : Int)) = some (G.successors (n + 1 - j))) ∧
    (∀ j : Nat, 1 ≤ j → j ≤ n + 1 → ∀ v : Nat,
      (G.hasEdgeAt (-(j : Int)) v).isSome) := by
  have hsl := make_s_indptr_length n edges c G h
  obtain ⟨hv, _, _, _, hsp, _, _, _⟩ := make_eq_some n edges c G h
  refine ⟨?_, fun j hj2 hjn => ?_, fun j hj1 hjn v => ?_⟩
  · have hstart : npGet G.s_indptr (-((1 : Nat) : Int)) =
        some (G.s_indptr.getD n 0) := by
      rw [npGet_neg G.s_indptr 1 (by omega) (by omega), hsl, Nat.add_sub_cancel]
      exact getElem?_eq_some_getD _ _ (by omega)
    have hstop : npGet G.s_indptr (-((1 : Nat) : Int) + 1) = some 0 := by
      rw [show -((1 : Nat) : Int) + 1 = ((0 : Nat) : Int) by norm_num]
      rw [npGet_nonneg, hsp,
        compact_fst_getElem n _ 0 (ebSort_pairwiseFst edges)
          (sSorted_fst_bound n edges hv) (by omega),
        cnt_eq_zero _ _ (fun e _ => Nat.zero_le _)]
    rw [show (-1 : Int) = -((1 : Nat) : Int) by norm_num]
    rw [successorsAt_eq G _ _ _ hstart hstop]
    simp [pySlice]
  · have hstart : npGet G.s_indptr (-(j : Int)) =
        some (G.s_indptr.getD (n + 1 - j) 0) := by
      rw [npGet_neg G.s_indptr j (by omega) (by omega), hsl]
      exact getElem?_eq_some_getD _ _ (by omega)
    have hstop : npGet G.s_indptr (-(j : Int) + 1) =
        some (G.s_indptr.getD (n + 2 - j) 0) := by
      rw [show -(j : Int) + 1 = -(((j - 1 : Nat)) : Int) by
          rw [Nat.cast_sub (by omega)]; push_cast; ring]
      rw [npGet_neg G.s_indptr (j - 1) (by omega) (by omega), hsl]
      rw [show n + 1 - (j - 1) = n + 2 - j by omega]
      exact getElem?_eq_some_getD _ _ (by omega)
    rw [successorsAt_eq G _ _ _ hstart hstop]
    unfold DiGraph.successors
    rw [show n + 1 - j + 1 = n + 2 - j by omega]
  · have hS : (G.successorsAt (-(j : Int))).isSome := by
      apply successorsAt_isSome
      · exact npGet_isSome _ _ (by rw [hsl]; push_cast; omega)
          (by rw [hsl]; push_cast; omega)
      · exact npGet_isSome _ _ (by rw [hsl]; push_cast; omega)
          (by rw [hsl]; push_cast; omega)
    obtain ⟨s, hs2⟩ := Option.isSome_iff_exists.1 hS
    unfold DiGraph.hasEdgeAt
    rw [hs2]
    rfl

/-- C10 witness: on the concrete scenario graph, successors at -1 is empty,
successors at -3 is the slice of node 2, and has_edge at source -2 answers. -/
theorem negative_ids_wrap_witness :
    egGraph.successorsAt (-1) = some [] ∧
    egGraph.successorsAt (-((3 : Nat) : Int)) = some (egGraph.successors (4 + 1 - 3)) ∧
    (egGraph.hasEdgeAt (-((2 : Nat) : Int)) 0).isSome :=
  ⟨(negative_ids_wrap 4 egEdges 10 egGraph egGraph_make).1,
   (negative_ids_wrap 4 egEdges 10 egGraph egGraph_make).2.1 3 (by decide) (by decide),
   (negative_ids_wrap 4 egEdges 10 egGraph egGraph_make).2.2 2 (by decide) (by decide) 0⟩

end StaticGraph
